import Mathlib

set_option maxRecDepth 8192

/-!
Shallow embedding of the pattern-based extraction engine of
`src/template/src/main.rs` (the `dump_info` tool of the swap-program
template repository), together with theorems settling the specification
claims about it.

The Rust code recognizes five fixed textual patterns (regular
expressions) over the raw source text and assembles the captures into a
`ProgramInfo` aggregate.  Each regular expression used by the code is
deterministic: every quantified character class excludes the character
that the pattern requires next, so greedy matching never needs to
backtrack into a class.  Each pattern is therefore embedded as a direct
scanning function (`match…At`) that attempts the pattern at one position,
plus a driver that either takes the first match (`findFirst…`, for
`Regex::captures`) or iterates non-overlapping leftmost matches
(`scanAll`, for `Regex::captures_iter`).  Character classes `\w` and `\s`
are modelled at their ASCII meaning, which coincides with the Rust
behaviour on ASCII source text.
-/

namespace SwapExtract

/-- Whitespace test: Rust `char::is_whitespace` / regex `\s` on ASCII. -/
def isWs (c : Char) : Bool :=
  c == ' ' || c == '\t' || c == '\n' || c == '\r' || c == '\x0b' || c == '\x0c'

/-- Word-character test: Rust regex `\w` on ASCII. -/
def isWordChar (c : Char) : Bool :=
  c.isAlphanum || c == '_'

/-- Character-class test for `[^d]`: any character other than `d`. -/
def isNot (d c : Char) : Bool :=
  decide (c ≠ d)

/-- Match a literal fragment of a pattern; on success return the rest of
the input. -/
def dropLit : List Char → List Char → Option (List Char)
  | [], s => some s
  | _ :: _, [] => none
  | p :: ps, c :: cs => if p = c then dropLit ps cs else none

/-- Rust `str::lines`: split on a line feed or on a carriage return
followed by a line feed; a final line terminator produces no extra empty
line. -/
def rlines : List Char → List (List Char)
  | [] => []
  | '\r' :: '\n' :: cs => [] :: rlines cs
  | '\n' :: cs => [] :: rlines cs
  | c :: cs =>
    match rlines cs with
    | [] => [[c]]
    | l :: ls => (c :: l) :: ls

/-- Remove trailing whitespace (Rust `str::trim_end`). -/
def trimEnd (l : List Char) : List Char :=
  (l.reverse.dropWhile isWs).reverse

/-- Remove leading and trailing whitespace (Rust `str::trim`). -/
def trimChars (l : List Char) : List Char :=
  trimEnd (l.dropWhile isWs)

/-- Accumulator-based worker for `splitWs`; `cur` holds the current token
reversed. -/
def splitWsAux (cur : List Char) : List Char → List (List Char)
  | [] => if cur = [] then [] else [cur.reverse]
  | c :: cs =>
    if isWs c then
      if cur = [] then splitWsAux [] cs
      else cur.reverse :: splitWsAux [] cs
    else splitWsAux (c :: cur) cs

/-- Rust `str::split_whitespace`: the maximal non-whitespace tokens, in
order. -/
def splitWs (l : List Char) : List (List Char) :=
  splitWsAux [] l

/-- Rust `str::split(',')`: all comma-separated segments, empty segments
included. -/
def splitOnComma : List Char → List (List Char)
  | [] => [[]]
  | c :: cs =>
    if c = ',' then [] :: splitOnComma cs
    else
      match splitOnComma cs with
      | [] => [[c]]
      | l :: ls => (c :: l) :: ls

/-- Rust `str::split_once(':')`: split at the first colon, if any. -/
def splitOnceColon : List Char → Option (List Char × List Char)
  | [] => none
  | c :: cs =>
    if c = ':' then some ([], cs)
    else (splitOnceColon cs).map (fun p => (c :: p.1, p.2))

/-! ### The data model (the `serde`-serialized record structures) -/

structure ArgumentInfo where
  name : String
  type_name : String
deriving DecidableEq

structure InstructionInfo where
  name : String
  arguments : List ArgumentInfo
deriving DecidableEq

structure FieldInfo where
  name : String
  type_name : String
deriving DecidableEq

structure AccountInfo where
  name : String
  fields : List FieldInfo
deriving DecidableEq

structure ErrorInfo where
  name : String
  code : Nat
  message : String
deriving DecidableEq

structure StructInfo where
  name : String
  fields : List FieldInfo
deriving DecidableEq

structure ProgramInfo where
  program_id : String
  instructions : List InstructionInfo
  accounts : List AccountInfo
  errors : List ErrorInfo
  structs : List StructInfo
deriving DecidableEq

/-! ### The five recognition patterns -/

/-- The literal head of the program-identifier pattern
`declare_id!\("([^"]+)"\)`. -/
def declareIdPat : List Char := "declare_id!(\"".toList

/-- The literal tail of the program-identifier pattern. -/
def declareIdClose : List Char := "\")".toList

/-- Attempt `declare_id!\("([^"]+)"\)` at the start of `s`; on success
return the capture and the rest of the input. -/
def matchDeclareIdAt (s : List Char) : Option (List Char × List Char) :=
  match dropLit declareIdPat s with
  | none => none
  | some s1 =>
    if s1.takeWhile (isNot '\"') = [] then none
    else
      match dropLit declareIdClose (s1.dropWhile (isNot '\"')) with
      | none => none
      | some rest => some (s1.takeWhile (isNot '\"'), rest)

/-- `Regex::captures` for the program-identifier pattern: the leftmost
match, if any (later occurrences are ignored). -/
def findFirstDeclare : List Char → Option (List Char)
  | [] => none
  | c :: t =>
    match matchDeclareIdAt (c :: t) with
    | some (lit, _) => some lit
    | none => findFirstDeclare t

/-- Attempt the instruction pattern
`pub fn (\w+)\(ctx: Context<([^>]+)>(?:, ([^)]+))?\)` at the start of
`s`.  On success return the three captures (function name, context type,
optional raw argument list) and the rest of the input.  The optional
group starts with a comma while the fallback requires a closing
parenthesis, so trying the group first and falling back on failure is
exactly the regex backtracking behaviour. -/
def matchInstrAt (s : List Char) :
    Option ((List Char × List Char × Option (List Char)) × List Char) :=
  match dropLit "pub fn ".toList s with
  | none => none
  | some s1 =>
    if s1.takeWhile isWordChar = [] then none
    else
      match dropLit "(ctx: Context<".toList (s1.dropWhile isWordChar) with
      | none => none
      | some s2 =>
        if s2.takeWhile (isNot '>') = [] then none
        else
          match dropLit ">".toList (s2.dropWhile (isNot '>')) with
          | none => none
          | some s3 =>
            match dropLit ", ".toList s3 with
            | some s4 =>
              if s4.takeWhile (isNot ')') = [] then none
              else
                match dropLit ")".toList (s4.dropWhile (isNot ')')) with
                | none => none
                | some rest =>
                  some ((s1.takeWhile isWordChar,
                         s2.takeWhile (isNot '>'),
                         some (s4.takeWhile (isNot ')'))), rest)
            | none =>
              match dropLit ")".toList s3 with
              | none => none
              | some rest =>
                some ((s1.takeWhile isWordChar,
                       s2.takeWhile (isNot '>'), none), rest)

/-- Attempt the resource-account pattern
`#\[derive\(Accounts\)\]\s+pub struct (\w+)<[^>]*>\s*\{([^}]+)\}` at the
start of `s`; on success return the name and body captures and the rest
of the input. -/
def matchAccountAt (s : List Char) :
    Option ((List Char × List Char) × List Char) :=
  match dropLit "#[derive(Accounts)]".toList s with
  | none => none
  | some s1 =>
    if s1.takeWhile isWs = [] then none
    else
      match dropLit "pub struct ".toList (s1.dropWhile isWs) with
      | none => none
      | some s2 =>
        if s2.takeWhile isWordChar = [] then none
        else
          match dropLit "<".toList (s2.dropWhile isWordChar) with
          | none => none
          | some s3 =>
            match dropLit ">".toList (s3.dropWhile (isNot '>')) with
            | none => none
            | some s4 =>
              match dropLit "\x7b".toList (s4.dropWhile isWs) with
              | none => none
              | some s5 =>
                if s5.takeWhile (isNot '\x7d') = [] then none
                else
                  match dropLit "\x7d".toList (s5.dropWhile (isNot '\x7d')) with
                  | none => none
                  | some rest =>
                    some ((s2.takeWhile isWordChar,
                           s5.takeWhile (isNot '\x7d')), rest)

/-- Attempt the plain-struct pattern `pub struct (\w+)\s*\{([^}]+)\}` at
the start of `s`; on success return the name and body captures and the
rest of the input. -/
def matchStructAt (s : List Char) :
    Option ((List Char × List Char) × List Char) :=
  match dropLit "pub struct ".toList s with
  | none => none
  | some s1 =>
    if s1.takeWhile isWordChar = [] then none
    else
      match dropLit "\x7b".toList ((s1.dropWhile isWordChar).dropWhile isWs) with
      | none => none
      | some s2 =>
        if s2.takeWhile (isNot '\x7d') = [] then none
        else
          match dropLit "\x7d".toList (s2.dropWhile (isNot '\x7d')) with
          | none => none
          | some rest =>
            some ((s1.takeWhile isWordChar, s2.takeWhile (isNot '\x7d')), rest)

/-- Attempt the error-enumeration pattern `pub enum Error\s*\{([^}]+)\}`
at the start of `s`; on success return the body capture and the rest of
the input. -/
def matchErrorAt (s : List Char) : Option (List Char × List Char) :=
  match dropLit "pub enum Error".toList s with
  | none => none
  | some s1 =>
    match dropLit "\x7b".toList (s1.dropWhile isWs) with
    | none => none
    | some s2 =>
      if s2.takeWhile (isNot '\x7d') = [] then none
      else
        match dropLit "\x7d".toList (s2.dropWhile (isNot '\x7d')) with
        | none => none
        | some rest => some (s2.takeWhile (isNot '\x7d'), rest)

/-- `Regex::captures` for the error-enumeration pattern: the leftmost
match, if any. -/
def findFirstError : List Char → Option (List Char)
  | [] => none
  | c :: t =>
    match matchErrorAt (c :: t) with
    | some (body, _) => some body
    | none => findFirstError t

/-- Worker for `scanAll`, with fuel bounding the number of scan steps.
Each step either consumes the matched text or advances one position, so
`fuel = s.length` never runs out before the input does (every matcher
consumes at least one character on success). -/
def scanAllAux {α : Type} (m : List Char → Option (α × List Char)) :
    Nat → List Char → List α
  | 0, _ => []
  | _ + 1, [] => []
  | fuel + 1, c :: t =>
    match m (c :: t) with
    | some (a, rest) => a :: scanAllAux m fuel rest
    | none => scanAllAux m fuel t

/-- `Regex::captures_iter`: all successive non-overlapping leftmost
matches of a pattern. -/
def scanAll {α : Type} (m : List Char → Option (α × List Char))
    (s : List Char) : List α :=
  scanAllAux m s.length s

/-! ### The capture-processing loop bodies -/

/-- Loop body of the instruction rule (main.rs lines 95-116): build one
`InstructionInfo` from the captures.  A missing third capture defaults to
the empty argument string; a non-empty argument string is split on
commas, and every fragment that contains a colon is split at the first
colon into a trimmed name and type. -/
def buildInstruction
    (caps : List Char × List Char × Option (List Char)) : InstructionInfo :=
  { name := String.mk caps.1
  , arguments :=
      if caps.2.2.getD [] = [] then []
      else
        (splitOnComma (caps.2.2.getD [])).filterMap (fun arg =>
          match splitOnceColon (trimChars arg) with
          | some (np, tp) =>
            some { name := String.mk (trimChars np)
                 , type_name := String.mk (trimChars tp) }
          | none => none) }

/-- Field loop of the resource-account rule (main.rs lines 125-149),
with the `current_field` attribute buffer threaded through.  Attribute
lines are accumulated into the buffer (and yield no field); a
non-attribute line containing a colon yields a field whose name is the
last whitespace-separated token before the colon and whose type is the
trimmed text after it; every non-attribute line clears the buffer. -/
def accountFieldsAux : List Char → List (List Char) → List FieldInfo
  | _, [] => []
  | buf, line :: rest =>
    match trimChars line with
    | [] => accountFieldsAux buf rest
    | c :: cs =>
      if c = '#' then accountFieldsAux (buf ++ (c :: cs) ++ [' ']) rest
      else
        match splitOnceColon (c :: cs) with
        | some (np, tp) =>
          { name := String.mk ((splitWs np).getLast?.getD [])
          , type_name := String.mk (trimChars tp) } :: accountFieldsAux [] rest
        | none => accountFieldsAux [] rest

/-- Build one `AccountInfo` from the resource-account captures. -/
def buildAccount (caps : List Char × List Char) : AccountInfo :=
  { name := String.mk caps.1
  , fields := accountFieldsAux [] (rlines caps.2) }

/-- Field loop of the plain-struct rule (main.rs lines 178-190): skip
blank and attribute lines; a line containing a colon yields a field whose
name is the trimmed text before the first colon and whose type is the
trimmed text after it. -/
def structFields : List (List Char) → List FieldInfo
  | [] => []
  | line :: rest =>
    match trimChars line with
    | [] => structFields rest
    | c :: cs =>
      if c = '#' then structFields rest
      else
        match splitOnceColon (c :: cs) with
        | some (np, tp) =>
          { name := String.mk (trimChars np)
          , type_name := String.mk (trimChars tp) } :: structFields rest
        | none => structFields rest

/-- Build one `StructInfo` from the plain-struct captures. -/
def buildStruct (caps : List Char × List Char) : StructInfo :=
  { name := String.mk caps.1
  , fields := structFields (rlines caps.2) }

/-- Variant loop of the error rule (main.rs lines 158-169): iterate the
body lines with `enumerate`, so `idx` counts every line (blank and
attribute lines included); a kept line yields an error whose name and
message are both its first whitespace token and whose code is
`idx as u32 + 6000` — the cast truncates the line index mod 2^32 and the
32-bit addition wraps mod 2^32, modelled as
`(idx % 2^32 + 6000) % 2^32`. -/
def errorsOfLines : Nat → List (List Char) → List ErrorInfo
  | _, [] => []
  | idx, line :: rest =>
    match trimChars line with
    | [] => errorsOfLines (idx + 1) rest
    | c :: cs =>
      if c = '#' then errorsOfLines (idx + 1) rest
      else
        { name := String.mk ((splitWs (c :: cs)).head?.getD [])
        , code := (idx % 4294967296 + 6000) % 4294967296
        , message := String.mk ((splitWs (c :: cs)).head?.getD []) }
          :: errorsOfLines (idx + 1) rest

/-! ### The extraction engine and the CLI glue -/

/-- `parse_program_info` (main.rs lines 77-196) over a character list:
apply the five patterns to the whole input and assemble the aggregate. -/
def parseChars (content : List Char) : ProgramInfo :=
  { program_id := String.mk ((findFirstDeclare content).getD [])
  , instructions := (scanAll matchInstrAt content).map buildInstruction
  , accounts := (scanAll matchAccountAt content).map buildAccount
  , errors :=
      match findFirstError content with
      | some body => errorsOfLines 0 (rlines body)
      | none => []
  , structs := (scanAll matchStructAt content).map buildStruct }

/-- `parse_program_info` on a string. -/
def parse_program_info (content : String) : ProgramInfo :=
  parseChars content.toList

/-- `dump_program_info` (main.rs lines 63-75), with the outcome of the
file read passed in: an unreadable file (`none`) is replaced by the empty
string and extraction continues.  Printing the serialized aggregate and
the process exit are external collaborators and are not modelled. -/
def dump_program_info (readResult : Option String) : ProgramInfo :=
  parse_program_info (readResult.getD "")

/-! ### Specification-side definitions used to state the claims -/

/-- An occurrence of the program-identifier declaration shape at offset
`i` of `s`, with captured literal `lit`: the text at `i` reads
`declare_id!("` then a non-empty quote-free literal, then `")`. -/
def declareIdOcc (s : List Char) (i : Nat) (lit : List Char) : Prop :=
  lit ≠ [] ∧ (∀ c ∈ lit, c ≠ '\"') ∧
    ∃ rest, s.drop i = declareIdPat ++ (lit ++ (declareIdClose ++ rest))

/-- The last whitespace-separated token of a string (empty when there is
none). -/
def lastToken (s : String) : String :=
  String.mk ((splitWs s.toList).getLast?.getD [])

/-- Per-line field extraction as the specification describes it for
resource-account bodies: an attribute line contributes nothing; a line
containing a colon contributes a field whose name is the last
whitespace-separated token before the first colon and whose type is the
text after the colon, trimmed; other lines contribute nothing. -/
def specFieldOfLine (line : List Char) : Option FieldInfo :=
  match trimChars line with
  | [] => none
  | c :: cs =>
    if c = '#' then none
    else
      match splitOnceColon (c :: cs) with
      | some (np, tp) =>
        some { name := String.mk ((splitWs np).getLast?.getD [])
             , type_name := String.mk (trimChars tp) }
      | none => none

/-- The error record contributed by one indexed body line, as the amended
claim describes it: the code is 6000 plus the zero-based index of the
line among all lines of the brace body, computed in wrapping 32-bit
arithmetic as in the source (`idx as u32 + 6000`). -/
def errLineSpec (p : Nat × List Char) : Option ErrorInfo :=
  match trimChars p.2 with
  | [] => none
  | c :: cs =>
    if c = '#' then none
    else
      some { name := String.mk ((splitWs (c :: cs)).head?.getD [])
           , code := (p.1 % 4294967296 + 6000) % 4294967296
           , message := String.mk ((splitWs (c :: cs)).head?.getD []) }

/-- The error list as the amended claim describes it: enumerate all body
lines, keep the non-blank non-attribute ones, and give each kept variant
the code `6000 + (its line index)`. -/
def specErrorCodes (body : List Char) : List ErrorInfo :=
  ((rlines body).enum).filterMap errLineSpec

/-! ### Helper lemmas -/

theorem dropLit_iff {p s r : List Char} : dropLit p s = some r ↔ s = p ++ r := by
  induction p generalizing s with
  | nil => simp [dropLit]
  | cons a ps ih =>
    cases s with
    | nil => simp [dropLit]
    | cons c cs =>
      by_cases h : a = c
      · subst h
        simp [dropLit, ih]
      · simp [dropLit, h, Ne.symm h]

theorem takeWhile_append_of_all {p : Char → Bool} {l : List Char}
    (hl : ∀ c ∈ l, p c = true) {d : Char} (hd : p d = false) (r : List Char) :
    ((l ++ d :: r).takeWhile p) = l := by
  induction l with
  | nil => simp [List.takeWhile_cons, hd]
  | cons a l ih =>
    have ha : p a = true := hl a (by simp)
    simp only [List.cons_append, List.takeWhile_cons, ha, if_true]
    rw [ih (fun c hc => hl c (by simp [hc]))]

theorem dropWhile_append_of_all {p : Char → Bool} {l : List Char}
    (hl : ∀ c ∈ l, p c = true) {d : Char} (hd : p d = false) (r : List Char) :
    ((l ++ d :: r).dropWhile p) = d :: r := by
  induction l with
  | nil => simp [List.dropWhile_cons, hd]
  | cons a l ih =>
    have ha : p a = true := hl a (by simp)
    simp only [List.cons_append, List.dropWhile_cons, ha, if_true]
    exact ih (fun c hc => hl c (by simp [hc]))

end SwapExtract

/-! ### Theorems for the claims that are settled on concrete inputs -/

namespace SwapExtract

/-- Claim C9: extraction is a pure function of the source text; two runs
over byte-identical input produce identical aggregates. -/
theorem c9_theorem (s t : String) (h : s = t) :
    parse_program_info s = parse_program_info t := by
  rw [h]

/-- Witness for C9 at a concrete input. -/
theorem c9_witness :
    parse_program_info "declare_id!(\"ABC\")" =
      parse_program_info "declare_id!(\"ABC\")" :=
  c9_theorem _ _ rfl

/-- Claim C5: an unreadable source file is replaced by the empty text
buffer, and the resulting aggregate has identifier `""` and all four
lists empty; equivalently, parsing the empty string yields the empty
aggregate. -/
theorem c5_theorem :
    dump_program_info none = ⟨"", [], [], [], []⟩ ∧
      parse_program_info "" = ⟨"", [], [], [], []⟩ := by
  decide

/-- Claim C3: the instruction with trailing arguments
`pub fn foo(ctx: Context<Bar>, id: u64, amount: u64)` yields one entry
named `foo` with arguments `[(id, u64), (amount, u64)]` in order, and the
instruction `pub fn baz(ctx: Context<Qux>)` yields one entry named `baz`
with an empty argument list. -/
theorem c3_theorem :
    (parse_program_info
        "pub fn foo(ctx: Context<Bar>, id: u64, amount: u64)").instructions =
      [⟨"foo", [⟨"id", "u64"⟩, ⟨"amount", "u64"⟩]⟩] ∧
    (parse_program_info "pub fn baz(ctx: Context<Qux>)").instructions =
      [⟨"baz", []⟩] := by
  decide

/-- Claim C10: the instruction pattern requires `ctx: Context<...>` to
follow the opening parenthesis immediately; on a source text where
`make_offer` has its parameter list on new lines (as in the template's
own `lib.rs`) the instruction list has no entry for `make_offer`, while
the one-line `take_offer` is captured. -/
theorem c10_theorem :
    ((parse_program_info
        "pub fn make_offer(\n    ctx: Context<MakeOffer>,\n    id: u64,\n) -> Result<()> \x7b\n    Ok(())\n\x7d\n\npub fn take_offer(ctx: Context<TakeOffer>) -> Result<()> \x7b\n    Ok(())\n\x7d").instructions.map
        InstructionInfo.name = ["take_offer"]) ∧
    "make_offer" ∉
      (parse_program_info
        "pub fn make_offer(\n    ctx: Context<MakeOffer>,\n    id: u64,\n) -> Result<()> \x7b\n    Ok(())\n\x7d\n\npub fn take_offer(ctx: Context<TakeOffer>) -> Result<()> \x7b\n    Ok(())\n\x7d").instructions.map
        InstructionInfo.name := by
  decide

/-- Counterexample to claim C1 as stated: a struct recognized by the
resource-account rule (which requires a generic parameter list after the
name) is captured in the accounts list but does not appear in the
plain-struct list of the same input, so dual capture fails. -/
theorem c1_counterexample :
    ((parse_program_info
        "#[derive(Accounts)]\npub struct TakeOffer<A> \x7b\n    pub taker: Signer<A>,\n\x7d").accounts.map
        AccountInfo.name = ["TakeOffer"]) ∧
    (parse_program_info
        "#[derive(Accounts)]\npub struct TakeOffer<A> \x7b\n    pub taker: Signer<A>,\n\x7d").structs =
      [] := by
  decide

/-- Counterexample to claim C2 as stated: an error enumeration with
exactly three variants whose codes are not 6000, 6001, 6002 — blank lines
(and the body's leading line break) consume code indices. -/
theorem c2_counterexample :
    (parse_program_info "pub enum Error \x7b\nA,\nB,\n\nC,\x7d").errors.length = 3 ∧
    (parse_program_info "pub enum Error \x7b\nA,\nB,\n\nC,\x7d").errors.map
        ErrorInfo.code = [6001, 6002, 6004] ∧
    (parse_program_info "pub enum Error \x7b\nA,\nB,\n\nC,\x7d").errors.map
        ErrorInfo.code ≠ [6000, 6001, 6002] := by
  decide

/-- Counterexample to claim C4 as stated: on the body line `pub x: u8`
the plain-struct body parser records the field name `pub x` while the
resource-account body parser records `x`, so the two field lists
differ. -/
theorem c4_counterexample :
    structFields (rlines "    pub x: u8".toList) ≠
      accountFieldsAux [] (rlines "    pub x: u8".toList) := by
  decide

/-! ### The error rule: general theorems -/

theorem errorsOfLines_message (lines : List (List Char)) :
    ∀ idx, ∀ e ∈ errorsOfLines idx lines, e.message = e.name := by
  induction lines with
  | nil => intro idx e he; simp [errorsOfLines] at he
  | cons line rest ih =>
    intro idx e he
    simp only [errorsOfLines] at he
    split at he
    · exact ih _ e he
    · split at he
      · exact ih _ e he
      · rcases List.mem_cons.mp he with h1 | h2
        · rw [h1]
        · exact ih _ e h2

/-- Claim C7: in every extracted error record the message is a copy of
the name. -/
theorem c7_theorem (content : List Char) :
    ∀ e ∈ (parseChars content).errors, e.message = e.name := by
  intro e he
  have hrfl : (parseChars content).errors =
      match findFirstError content with
      | some body => errorsOfLines 0 (rlines body)
      | none => [] := rfl
  rw [hrfl] at he
  cases hf : findFirstError content with
  | none => rw [hf] at he; simp at he
  | some body =>
    rw [hf] at he
    exact errorsOfLines_message _ 0 e he

/-- Witness for C7 at a concrete input: the single extracted error record
of a one-variant enumeration has its message equal to its name. -/
theorem c7_witness :
    (⟨"A,", 6000, "A,"⟩ : ErrorInfo) ∈
        (parseChars ("pub enum Error \x7bA,\x7d".toList)).errors ∧
      (⟨"A,", 6000, "A,"⟩ : ErrorInfo).message =
        (⟨"A,", 6000, "A,"⟩ : ErrorInfo).name :=
  ⟨by decide,
    c7_theorem ("pub enum Error \x7bA,\x7d".toList) ⟨"A,", 6000, "A,"⟩ (by decide)⟩

theorem errorsOfLines_eq_enumFrom (lines : List (List Char)) :
    ∀ i, errorsOfLines i lines = (List.enumFrom i lines).filterMap errLineSpec := by
  induction lines with
  | nil => intro i; rfl
  | cons line rest ih =>
    intro i
    have henum : List.enumFrom i (line :: rest) =
        (i, line) :: List.enumFrom (i + 1) rest := rfl
    rw [henum, List.filterMap_cons]
    cases heq : trimChars line with
    | nil =>
      have h1 : errorsOfLines i (line :: rest) = errorsOfLines (i + 1) rest := by
        simp [errorsOfLines, heq]
      have h2 : errLineSpec (i, line) = none := by simp [errLineSpec, heq]
      rw [h1, h2, ih]
    | cons c cs =>
      by_cases hc : c = '#'
      · have h1 : errorsOfLines i (line :: rest) = errorsOfLines (i + 1) rest := by
          simp [errorsOfLines, heq, hc]
        have h2 : errLineSpec (i, line) = none := by simp [errLineSpec, heq, hc]
        rw [h1, h2, ih]
      · have h1 : errorsOfLines i (line :: rest) =
            { name := String.mk ((splitWs (c :: cs)).head?.getD [])
            , code := (i % 4294967296 + 6000) % 4294967296
            , message := String.mk ((splitWs (c :: cs)).head?.getD []) }
              :: errorsOfLines (i + 1) rest := by
          simp [errorsOfLines, heq, hc]
        have h2 : errLineSpec (i, line) =
            some { name := String.mk ((splitWs (c :: cs)).head?.getD [])
                 , code := (i % 4294967296 + 6000) % 4294967296
                 , message := String.mk ((splitWs (c :: cs)).head?.getD []) } := by
          simp [errLineSpec, heq, hc]
        rw [h1, h2, ih]

/-- Claim C2, amended: error codes are 6000 plus the zero-based index of
the variant's line among all lines of the brace-delimited body, computed
in wrapping 32-bit arithmetic (`idx as u32 + 6000`) — blank and
attribute lines consume indices — so the extracted errors are exactly
the line-indexed enumeration `specErrorCodes` of the captured body. -/
theorem c2_theorem (content : List Char) :
    (parseChars content).errors =
      match findFirstError content with
      | some body => specErrorCodes body
      | none => [] := by
  have hrfl : (parseChars content).errors =
      match findFirstError content with
      | some body => errorsOfLines 0 (rlines body)
      | none => [] := rfl
  rw [hrfl]
  cases findFirstError content with
  | none => rfl
  | some body =>
    show errorsOfLines 0 (rlines body) = specErrorCodes body
    rw [errorsOfLines_eq_enumFrom]
    rfl

/-! ### The resource-account field loop: general theorems -/

theorem accountFieldsAux_eq_filterMap (lines : List (List Char)) :
    ∀ buf, accountFieldsAux buf lines = lines.filterMap specFieldOfLine := by
  induction lines with
  | nil => intro buf; rfl
  | cons line rest ih =>
    intro buf
    rw [List.filterMap_cons]
    cases heq : trimChars line with
    | nil =>
      have h1 : accountFieldsAux buf (line :: rest) = accountFieldsAux buf rest := by
        simp [accountFieldsAux, heq]
      have h2 : specFieldOfLine line = none := by simp [specFieldOfLine, heq]
      rw [h1, h2, ih]
    | cons c cs =>
      by_cases hc : c = '#'
      · have h1 : accountFieldsAux buf (line :: rest) =
            accountFieldsAux (buf ++ (c :: cs) ++ [' ']) rest := by
          simp [accountFieldsAux, heq, hc]
        have h2 : specFieldOfLine line = none := by simp [specFieldOfLine, heq, hc]
        rw [h1, h2, ih]
      · cases hs : splitOnceColon (c :: cs) with
        | none =>
          have h1 : accountFieldsAux buf (line :: rest) = accountFieldsAux [] rest := by
            simp [accountFieldsAux, heq, hc, hs]
          have h2 : specFieldOfLine line = none := by
            simp [specFieldOfLine, heq, hc, hs]
          rw [h1, h2, ih]
        | some p =>
          obtain ⟨np, tp⟩ := p
          have h1 : accountFieldsAux buf (line :: rest) =
              { name := String.mk ((splitWs np).getLast?.getD [])
              , type_name := String.mk (trimChars tp) } :: accountFieldsAux [] rest := by
            simp [accountFieldsAux, heq, hc, hs]
          have h2 : specFieldOfLine line =
              some { name := String.mk ((splitWs np).getLast?.getD [])
                   , type_name := String.mk (trimChars tp) } := by
            simp [specFieldOfLine, heq, hc, hs]
          rw [h1, h2, ih]

/-- Claim C8: the resource-account field loop is a per-line function,
independent of the accumulated attribute buffer — a non-attribute line
containing a colon records the last whitespace-separated token before the
first colon as the name and the trimmed text after it as the type, and an
attribute line contributes nothing to any field record. -/
theorem c8_theorem (buf : List Char) (lines : List (List Char)) :
    accountFieldsAux buf lines = lines.filterMap specFieldOfLine :=
  accountFieldsAux_eq_filterMap lines buf

/-! ### Whitespace splitting is invariant under trimming -/

theorem toList_mk (l : List Char) : (String.mk l).toList = l := rfl

theorem splitWs_dropWhile (l : List Char) : splitWs (l.dropWhile isWs) = splitWs l := by
  induction l with
  | nil => rfl
  | cons c cs ih =>
    by_cases h : isWs c = true
    · rw [List.dropWhile_cons_of_pos h, ih]
      show splitWs cs = splitWsAux [] (c :: cs)
      simp [splitWsAux, h, splitWs]
    · rw [List.dropWhile_cons_of_neg h]

theorem splitWsAux_ws_all {t : List Char} (ht : ∀ c ∈ t, isWs c = true) :
    ∀ cur, splitWsAux cur t = if cur = [] then [] else [cur.reverse] := by
  induction t with
  | nil => intro cur; rfl
  | cons c cs ih =>
    intro cur
    have hc : isWs c = true := ht c (by simp)
    have ih0 := ih (fun d hd => ht d (by simp [hd])) []
    simp only [splitWsAux, hc, if_true]
    by_cases h : cur = []
    · simp [h, ih0]
    · simp [h, ih0]

theorem splitWsAux_append_ws {t : List Char} (ht : ∀ c ∈ t, isWs c = true)
    (l : List Char) : ∀ cur, splitWsAux cur (l ++ t) = splitWsAux cur l := by
  induction l with
  | nil =>
    intro cur
    rw [List.nil_append, splitWsAux_ws_all ht cur]
    rfl
  | cons c cs ih =>
    intro cur
    simp only [List.cons_append, splitWsAux]
    by_cases h : isWs c = true
    · simp only [h, if_true]
      by_cases h2 : cur = []
      · simp only [h2, if_true]
        exact ih []
      · simp only [h2, if_false]
        exact congrArg _ (ih [])
    · simp only [h, if_false]
      exact ih _

theorem exists_ws_suffix (l : List Char) :
    ∃ t, l = trimEnd l ++ t ∧ ∀ c ∈ t, isWs c = true := by
  refine ⟨(l.reverse.takeWhile isWs).reverse, ?_, ?_⟩
  · calc l = l.reverse.reverse := l.reverse_reverse.symm
      _ = (l.reverse.takeWhile isWs ++ l.reverse.dropWhile isWs).reverse := by
            rw [List.takeWhile_append_dropWhile]
      _ = (l.reverse.dropWhile isWs).reverse ++ (l.reverse.takeWhile isWs).reverse := by
            rw [List.reverse_append]
      _ = trimEnd l ++ (l.reverse.takeWhile isWs).reverse := rfl
  · intro c hc
    rw [List.mem_reverse] at hc
    exact List.mem_takeWhile_imp hc

theorem splitWs_trimEnd (l : List Char) : splitWs (trimEnd l) = splitWs l := by
  obtain ⟨t, hl, ht⟩ := exists_ws_suffix l
  conv_rhs => rw [hl]
  exact (splitWsAux_append_ws ht (trimEnd l) []).symm

theorem splitWs_trimChars (l : List Char) : splitWs (trimChars l) = splitWs l := by
  unfold trimChars
  rw [splitWs_trimEnd, splitWs_dropWhile]

/-! ### The two field loops, compared -/

theorem accountFields_eq_structFields_map (lines : List (List Char)) :
    ∀ buf, accountFieldsAux buf lines =
      (structFields lines).map (fun f => ⟨lastToken f.name, f.type_name⟩) := by
  induction lines with
  | nil => intro buf; rfl
  | cons line rest ih =>
    intro buf
    cases heq : trimChars line with
    | nil =>
      have h1 : accountFieldsAux buf (line :: rest) = accountFieldsAux buf rest := by
        simp [accountFieldsAux, heq]
      have h2 : structFields (line :: rest) = structFields rest := by
        simp [structFields, heq]
      rw [h1, h2, ih]
    | cons c cs =>
      by_cases hc : c = '#'
      · have h1 : accountFieldsAux buf (line :: rest) =
            accountFieldsAux (buf ++ (c :: cs) ++ [' ']) rest := by
          simp [accountFieldsAux, heq, hc]
        have h2 : structFields (line :: rest) = structFields rest := by
          simp [structFields, heq, hc]
        rw [h1, h2, ih]
      · cases hs : splitOnceColon (c :: cs) with
        | none =>
          have h1 : accountFieldsAux buf (line :: rest) = accountFieldsAux [] rest := by
            simp [accountFieldsAux, heq, hc, hs]
          have h2 : structFields (line :: rest) = structFields rest := by
            simp [structFields, heq, hc, hs]
          rw [h1, h2, ih]
        | some p =>
          obtain ⟨np, tp⟩ := p
          have h1 : accountFieldsAux buf (line :: rest) =
              { name := String.mk ((splitWs np).getLast?.getD [])
              , type_name := String.mk (trimChars tp) } :: accountFieldsAux [] rest := by
            simp [accountFieldsAux, heq, hc, hs]
          have h2 : structFields (line :: rest) =
              { name := String.mk (trimChars np)
              , type_name := String.mk (trimChars tp) } :: structFields rest := by
            simp [structFields, heq, hc, hs]
          rw [h1, h2, List.map_cons, ih]
          have hname : lastToken (String.mk (trimChars np)) =
              String.mk ((splitWs np).getLast?.getD []) := by
            unfold lastToken
            rw [toList_mk, splitWs_trimChars]
          rw [hname]

/-- Claim C4, amended: the plain-struct body parser and the
resource-account body parser agree on the number, order and types of the
fields of every brace-delimited body, and on the name exactly when the
text before the colon is a single whitespace token — in general the
resource-account field name is the last whitespace-separated token of the
corresponding plain-struct field name (which is the whole trimmed text
before the first colon). -/
theorem c4_theorem (body : List Char) :
    accountFieldsAux [] (rlines body) =
      (structFields (rlines body)).map (fun f => ⟨lastToken f.name, f.type_name⟩) :=
  accountFields_eq_structFields_map (rlines body) []

/-! ### The program-identifier rule: leftmost-occurrence semantics -/

theorem matchDeclareIdAt_some {s lit rest : List Char}
    (h : matchDeclareIdAt s = some (lit, rest)) :
    s = declareIdPat ++ (lit ++ (declareIdClose ++ rest)) ∧
      lit ≠ [] ∧ ∀ c ∈ lit, c ≠ '\"' := by
  unfold matchDeclareIdAt at h
  split at h
  · exact absurd h (by simp)
  · rename_i s1 h1
    split at h
    · exact absurd h (by simp)
    · rename_i h2
      split at h
      · exact absurd h (by simp)
      · rename_i r2 h3
        simp only [Option.some.injEq, Prod.mk.injEq] at h
        obtain ⟨hl, hr⟩ := h
        have hs : s = declareIdPat ++ s1 := dropLit_iff.mp h1
        have hclose : s1.dropWhile (isNot '\"') = declareIdClose ++ r2 :=
          dropLit_iff.mp h3
        refine ⟨?_, ?_, ?_⟩
        · rw [hs, ← hl, ← hr, ← hclose, List.takeWhile_append_dropWhile]
        · rw [← hl]; exact h2
        · intro c hc
          rw [← hl] at hc
          have := List.mem_takeWhile_imp hc
          simpa [isNot] using this

theorem matchDeclareIdAt_of_occ {lit rest : List Char} (h1 : lit ≠ [])
    (h2 : ∀ c ∈ lit, c ≠ '\"') :
    matchDeclareIdAt (declareIdPat ++ (lit ++ (declareIdClose ++ rest))) =
      some (lit, rest) := by
  have hp : ∀ c ∈ lit, isNot '\"' c = true := fun c hc => by
    simp [isNot, h2 c hc]
  have harr : lit ++ (declareIdClose ++ rest) = lit ++ '\"' :: (')' :: rest) := rfl
  have htake : (lit ++ (declareIdClose ++ rest)).takeWhile (isNot '\"') = lit := by
    rw [harr]
    exact takeWhile_append_of_all hp (by decide) _
  have hdrop : (lit ++ (declareIdClose ++ rest)).dropWhile (isNot '\"') =
      '\"' :: (')' :: rest) := by
    rw [harr]
    exact dropWhile_append_of_all hp (by decide) _
  have hlit : dropLit declareIdClose ('\"' :: (')' :: rest)) = some rest :=
    dropLit_iff.mpr rfl
  have hpat : dropLit declareIdPat
      (declareIdPat ++ (lit ++ (declareIdClose ++ rest))) =
        some (lit ++ (declareIdClose ++ rest)) := dropLit_iff.mpr rfl
  simp [matchDeclareIdAt, hpat, htake, hdrop, hlit, h1]

theorem declareIdOcc_nil (i : Nat) (lit : List Char) : ¬ declareIdOcc [] i lit := by
  rintro ⟨h1, h2, rest, h3⟩
  rw [List.drop_nil] at h3
  have hnil := (List.append_eq_nil.mp h3.symm).1
  exact absurd hnil (by decide)

theorem declareIdOcc_succ {c : Char} {t : List Char} {i : Nat} {lit : List Char} :
    declareIdOcc (c :: t) (i + 1) lit ↔ declareIdOcc t i lit := by
  unfold declareIdOcc
  rw [List.drop_succ_cons]

theorem declareIdOcc_zero_match {s lit : List Char}
    (h : declareIdOcc s 0 lit) : ∃ rest, matchDeclareIdAt s = some (lit, rest) := by
  obtain ⟨h1, h2, rest, h3⟩ := h
  rw [List.drop_zero] at h3
  exact ⟨rest, by rw [h3]; exact matchDeclareIdAt_of_occ h1 h2⟩

theorem findFirstDeclare_none {s : List Char} (h : findFirstDeclare s = none) :
    ∀ i lit, ¬ declareIdOcc s i lit := by
  induction s with
  | nil => exact declareIdOcc_nil
  | cons c t ih =>
    intro i lit hocc
    cases hm : matchDeclareIdAt (c :: t) with
    | some p =>
      obtain ⟨l, r⟩ := p
      rw [findFirstDeclare, hm] at h
      exact absurd h (by simp)
    | none =>
      rw [findFirstDeclare, hm] at h
      cases i with
      | zero =>
        obtain ⟨r, hr⟩ := declareIdOcc_zero_match hocc
        rw [hm] at hr
        exact absurd hr (by simp)
      | succ i' => exact ih h i' lit (declareIdOcc_succ.mp hocc)

theorem findFirstDeclare_some {s lit : List Char}
    (h : findFirstDeclare s = some lit) : ∃ i, declareIdOcc s i lit := by
  induction s with
  | nil => exact absurd h (by simp [findFirstDeclare])
  | cons c t ih =>
    cases hm : matchDeclareIdAt (c :: t) with
    | some p =>
      obtain ⟨l, r⟩ := p
      obtain ⟨hshape, hne, hq⟩ := matchDeclareIdAt_some hm
      rw [findFirstDeclare, hm] at h
      simp only [Option.some.injEq] at h
      refine ⟨0, h ▸ ⟨hne, hq, r, ?_⟩⟩
      rw [List.drop_zero]
      exact hshape
    | none =>
      rw [findFirstDeclare, hm] at h
      obtain ⟨i, hi⟩ := ih h
      exact ⟨i + 1, declareIdOcc_succ.mpr hi⟩

theorem findFirstDeclare_min {s : List Char} :
    ∀ {i : Nat} {lit : List Char}, declareIdOcc s i lit →
      (∀ j l, declareIdOcc s j l → i ≤ j) → findFirstDeclare s = some lit := by
  induction s with
  | nil => intro i lit hocc _; exact absurd hocc (declareIdOcc_nil i lit)
  | cons c t ih =>
    intro i lit hocc hmin
    cases hm : matchDeclareIdAt (c :: t) with
    | some p =>
      obtain ⟨l, r⟩ := p
      obtain ⟨hshape, hne, hq⟩ := matchDeclareIdAt_some hm
      have hocc0 : declareIdOcc (c :: t) 0 l :=
        ⟨hne, hq, r, by rw [List.drop_zero]; exact hshape⟩
      have hi0 : i = 0 := Nat.le_zero.mp (hmin 0 l hocc0)
      subst hi0
      obtain ⟨r2, hr2⟩ := declareIdOcc_zero_match hocc
      rw [hm] at hr2
      simp only [Option.some.injEq, Prod.mk.injEq] at hr2
      rw [findFirstDeclare, hm, hr2.1]
    | none =>
      cases i with
      | zero =>
        obtain ⟨r, hr⟩ := declareIdOcc_zero_match hocc
        rw [hm] at hr
        exact absurd hr (by simp)
      | succ i' =>
        have hocc' : declareIdOcc t i' lit := declareIdOcc_succ.mp hocc
        have hmin' : ∀ j l, declareIdOcc t j l → i' ≤ j := by
          intro j l hjl
          have := hmin (j + 1) l (declareIdOcc_succ.mpr hjl)
          omega
        rw [findFirstDeclare, hm]
        exact ih hocc' hmin'

/-- Claim C6: if the text has no occurrence of the identifier-declaration
shape, the extracted program identifier is the empty string; if it has
one, the extracted identifier is the captured literal of the occurrence
at the least offset (later occurrences are ignored). -/
theorem c6_theorem (s : List Char) :
    ((∀ i lit, ¬ declareIdOcc s i lit) → (parseChars s).program_id = "") ∧
    (∀ i lit, declareIdOcc s i lit → (∀ j l, declareIdOcc s j l → i ≤ j) →
      (parseChars s).program_id = String.mk lit) := by
  constructor
  · intro hno
    have hid : (parseChars s).program_id =
        String.mk ((findFirstDeclare s).getD []) := rfl
    cases hf : findFirstDeclare s with
    | none => rw [hid, hf]; rfl
    | some lit =>
      obtain ⟨i, hi⟩ := findFirstDeclare_some hf
      exact absurd hi (hno i lit)
  · intro i lit hocc hmin
    have hid : (parseChars s).program_id =
        String.mk ((findFirstDeclare s).getD []) := rfl
    rw [hid, findFirstDeclare_min hocc hmin]
    rfl

/-- Witness for C6: the text `declare_id!("ABC123")` carries the shape at
offset 0 and the extracted identifier is `ABC123`. -/
theorem c6_witness :
    declareIdOcc ("declare_id!(\"ABC123\")".toList) 0 ("ABC123".toList) ∧
      (parseChars ("declare_id!(\"ABC123\")".toList)).program_id = "ABC123" := by
  have hocc : declareIdOcc ("declare_id!(\"ABC123\")".toList) 0 ("ABC123".toList) :=
    ⟨by decide, by decide, [], by decide⟩
  exact ⟨hocc,
    (c6_theorem ("declare_id!(\"ABC123\")".toList)).2 0 ("ABC123".toList) hocc
      (fun j l _ => Nat.zero_le j)⟩

/-! ### The plain-struct rule never matches a generic struct header -/

/-- Claim C1, amended: a struct declaration recognized by the
resource-account rule appears once in the accounts list but never in the
plain-struct list from the same declaration — the resource-account
pattern requires a generic parameter list `<...>` between the struct name
and the body, while the plain-struct pattern allows only whitespace
there, so the plain-struct matcher fails at every position where the
struct name is followed by `<`. -/
theorem c1_theorem (name rest : List Char) (h1 : name ≠ [])
    (h2 : ∀ c ∈ name, isWordChar c = true) :
    matchStructAt ("pub struct ".toList ++ (name ++ '<' :: rest)) = none := by
  have ht : (name ++ '<' :: rest).takeWhile isWordChar = name :=
    takeWhile_append_of_all h2 (by decide) rest
  have hd : (name ++ '<' :: rest).dropWhile isWordChar = '<' :: rest :=
    dropWhile_append_of_all h2 (by decide) rest
  have hws : ('<' :: rest).dropWhile isWs = '<' :: rest :=
    List.dropWhile_cons_of_neg (by decide)
  have hlit : dropLit "\x7b".toList ('<' :: rest) = none := by
    simp [dropLit, show ("\x7b".toList) = ['\x7b'] from rfl]
  have hpat : dropLit "pub struct ".toList
      ("pub struct ".toList ++ (name ++ '<' :: rest)) =
        some (name ++ '<' :: rest) := dropLit_iff.mpr rfl
  simp only [matchStructAt, hpat, ht, hd, hws, hlit, ite_self]

/-- Witness for the amended C1 at a concrete generic struct header. -/
theorem c1_witness :
    ("TakeOffer".toList ≠ [] ∧ ∀ c ∈ "TakeOffer".toList, isWordChar c = true) ∧
      matchStructAt ("pub struct ".toList ++
        ("TakeOffer".toList ++ '<' :: "A> \x7bx: u8\x7d".toList)) = none :=
  ⟨⟨by decide, by decide⟩,
    c1_theorem ("TakeOffer".toList) ("A> \x7bx: u8\x7d".toList)
      (by decide) (by decide)⟩

end SwapExtract
